import Mathlib

/-!
Shallow embedding of `inidirici.py` (a recursive website mirroring tool)
and proofs about its traversal engine, path mapper, resource classifier,
page rewriter and download worker pool.

Strings are modelled as `List Char` (Python `str`).  Filesystem and
network effects are modelled as explicit events / oracle functions.
-/

/-- Convert a Lean string literal to the `List Char` representation used
throughout the development. -/
def chars (x : String) : List Char := x.data

abbrev Str := List Char

/-! ## Generic string helpers (faithful to the Python library calls used) -/

/-- Characters before the first occurrence of `c` (the whole list if absent). -/
def takeUntil (c : Char) : Str → Str
  | [] => []
  | x :: xs => if x = c then [] else x :: takeUntil c xs

/-- Characters after the first occurrence of `c` (empty if absent). -/
def dropThrough (c : Char) : Str → Str
  | [] => []
  | x :: xs => if x = c then xs else dropThrough c xs

/-- Last index of `c` in the list, if any (Python `str.rfind`). -/
def lastIdxAux (c : Char) : Str → Nat → Option Nat → Option Nat
  | [], _, acc => acc
  | x :: xs, i, acc => lastIdxAux c xs (i + 1) (if x = c then some i else acc)

def lastIndexOf (c : Char) (l : Str) : Option Nat := lastIdxAux c l 0 none

/-! ## `sanitize_filename` (source lines 33-35)

`re.sub(r'[\\/*?:"<>|]', "_", filename)` replaces every occurrence of one
of the nine characters anywhere in the string by an underscore. -/

def isInvalidFileChar (c : Char) : Bool :=
  c = '\\' ∨ c = '/' ∨ c = '*' ∨ c = '?' ∨ c = ':' ∨ c = '"' ∨ c = '<' ∨ c = '>' ∨ c = '|'

def sanitize_filename (filename : Str) : Str :=
  filename.map (fun c => if isInvalidFileChar c then '_' else c)

/-! ## `os.path` helpers (CPython `posixpath`) -/

/-- `os.path.splitext(p)[1]`: the extension of the last path segment;
empty when the last dot is not after the last slash or when the basename
consists only of leading dots up to that dot. -/
def splitext_ext (p : Str) : Str :=
  match lastIndexOf '.' p with
  | none => []
  | some di =>
    let fi : Nat := match lastIndexOf '/' p with | none => 0 | some j => j + 1
    let dotAfterSep : Bool := match lastIndexOf '/' p with | none => true | some j => j < di
    if dotAfterSep then
      if ((p.take di).drop fi).any (fun c => ¬ c = '.') then p.drop di else []
    else []

/-- `os.path.dirname` on POSIX: everything up to the last slash, with
trailing slashes stripped unless the head is all slashes. -/
def dirname (p : Str) : Str :=
  let head := ((p.reverse).dropWhile (fun c => ¬ c = '/')).reverse
  if head = [] then []
  else if head.all (fun c => c = '/') then head
  else (head.reverse.dropWhile (fun c => c = '/')).reverse

/-- `os.path.join a b` on POSIX (two-argument form). -/
def joinPath (a b : Str) : Str :=
  if b.head? = some '/' then b
  else if a = [] ∨ a.getLast? = some '/' then a ++ b
  else a ++ '/' :: b

/-- Python `str.lstrip('/')`. -/
def lstripSlash (p : Str) : Str := p.dropWhile (fun c => c = '/')

/-! ## `urllib.parse.urlsplit` (fragment, scheme, netloc, query, path) -/

def isSchemeChar (c : Char) : Bool := c.isAlphanum ∨ c = '+' ∨ c = '-' ∨ c = '.'

structure UrlParts where
  scheme : Str
  netloc : Str
  path : Str
  query : Str
  fragment : Str
deriving DecidableEq

def notNetlocDelim (c : Char) : Bool := ¬ (c = '/' ∨ c = '?' ∨ c = '#')

def urlsplit (u : Str) : UrlParts :=
  let rest0 := takeUntil '#' u
  let frag := dropThrough '#' u
  let pre := takeUntil ':' rest0
  let hasScheme : Bool := rest0.contains ':' ∧ ¬ pre = [] ∧ pre.all isSchemeChar
  let scheme := if hasScheme then pre.map Char.toLower else []
  let rest1 := if hasScheme then dropThrough ':' rest0 else rest0
  let (netloc, rest2) :=
    match rest1 with
    | '/' :: '/' :: t => (t.takeWhile notNetlocDelim, t.dropWhile notNetlocDelim)
    | r => ([], r)
  ⟨scheme, netloc, takeUntil '?' rest2, dropThrough '?' rest2, frag⟩

def urlparse_path (u : Str) : Str := (urlsplit u).path

/-- `is_valid_url` (source lines 41-44): nonempty netloc and scheme. -/
def is_valid_url (u : Str) : Bool :=
  ¬ (urlsplit u).netloc = [] ∧ ¬ (urlsplit u).scheme = []

/-! ## Path Mapper (source lines 106-113) -/

/-- Source lines 107-111: directory-index defaulting on the URL path. -/
def mapPagePath (path : Str) : Str :=
  if path.getLast? = some '/' then path ++ chars "index.html"
  else if splitext_ext path = [] then path ++ chars "/index.html"
  else path

/-- Source line 113: `save_path = os.path.join(save_dir, path.lstrip('/'))`. -/
def pageSavePath (save_dir url : Str) : Str :=
  joinPath save_dir (lstripSlash (mapPagePath (urlparse_path url)))

/-- Source line 152: the path the page is actually written to. -/
def writtenPagePath (save_dir url : Str) : Str :=
  sanitize_filename (pageSavePath save_dir url)

/-! ## `os.path.relpath` (POSIX, for already-normalized relative paths)

CPython splits both paths into their nonempty components, removes the
common prefix and prepends one `..` per remaining start component. -/

def splitComponents (p : Str) : List Str :=
  (p.splitOn '/').filter (fun c => ¬ c = [])

/-- Length of the common prefix of two component lists
(`genericpath.commonprefix` on lists). -/
def commonPrefixLen : List Str → List Str → Nat
  | a :: as, b :: bs => if a = b then commonPrefixLen as bs + 1 else 0
  | _, _ => 0

/-- The component list of `os.path.relpath path start`. -/
def relpathParts (pl sl : List Str) : List Str :=
  let k := commonPrefixLen pl sl
  List.replicate (sl.length - k) (chars "..") ++ pl.drop k

/-- Join components with forward slashes. -/
def joinComponents : List Str → Str
  | [] => []
  | [c] => c
  | c :: cs => c ++ '/' :: joinComponents cs

/-- `os.path.relpath path start` on POSIX (source line 147), for paths that
are already normalized relative paths under a common working directory. -/
def relpath (path start : Str) : Str :=
  let parts := relpathParts (splitComponents path) (splitComponents start)
  if parts = [] then chars "." else joinComponents parts

/-- Source line 148: `relative_path.replace('\\', '/')`. -/
def slashify (p : Str) : Str := p.map (fun c => if c = '\\' then '/' else c)

/-! ## The download subsystem (`save_file`, source lines 56-82)

A streaming fetch is modelled as either a `RequestException` (covering
transport failures and `raise_for_status` on HTTP error codes, both raised
before the output file is opened) or a response carrying the declared
content length and the chunks yielded by `iter_content`; `streamError`
records a `RequestException` raised mid-iteration, after those chunks were
already written. -/

structure Response where
  contentLength : Nat
  chunks : List Str
  streamError : Bool
deriving DecidableEq

/-- Result of one `save_file` call: the returned boolean and the file left
on disk (destination path after the second sanitization, with content). -/
structure SaveResult where
  ok : Bool
  written : Option (Str × Str)
deriving DecidableEq

def save_file (resp : Except Unit Response) (save_path : Str) (max_size : Nat) : SaveResult :=
  match resp with
  | Except.error _ => ⟨false, none⟩
  | Except.ok r =>
    if r.contentLength > max_size * 1024 * 1024 then ⟨false, none⟩
    else
      let sp := sanitize_filename save_path
      if r.streamError then ⟨false, some (sp, r.chunks.flatten)⟩
      else ⟨true, some (sp, r.chunks.flatten)⟩

/-! ## The worker loop (`download_worker`, source lines 84-91)

Queue items are either a `(url, save_path)` pair or the `None` sentinel
pushed at shutdown.  The body begins with the tuple unpacking
`url, save_path = download_queue.get()`; when the dequeued item is `None`
this raises `TypeError: cannot unpack non-iterable NoneType object`
before the `if url is None: break` line can run, and the thread dies with
an unhandled exception.  After a successful unpack `url` is a string from
a `download_queue.put((resource_url, resource_path))`, never `None`, so
the `break` is unreachable. -/

abbrev QItem := Option (Str × Str)

/-- Python tuple unpacking `url, save_path = item`. -/
def unpackPair : QItem → Except Unit (Str × Str)
  | none => Except.error ()
  | some p => Except.ok p

inductive WorkerExit where
  /-- The thread died from the `TypeError` raised when unpacking `None`. -/
  | typeError
  /-- The loop exited through `if url is None: break`. -/
  | cleanStop
  /-- The item list ran out: the worker would block in `get()` forever. -/
  | starved
deriving DecidableEq

structure DLEnv where
  fetchFile : Str → Except Unit Response

/-- One worker draining the given sequence of queue items in order; returns
how the loop ended and, per processed task, its URL with the `save_file`
result. -/
def download_worker_run (env : DLEnv) (max_size : Nat) : List QItem → WorkerExit × List (Str × Bool)
  | [] => (WorkerExit.starved, [])
  | item :: rest =>
    match unpackPair item with
    | Except.error _ => (WorkerExit.typeError, [])
    | Except.ok (url, sp) =>
      let r := save_file (env.fetchFile url) sp max_size
      let out := download_worker_run env max_size rest
      (out.1, (url, r.ok) :: out.2)


/-! ## The Traversal Engine (`parse_and_download`, source lines 93-157)

HTML parsing is an external capability: a fetched page is modelled as the
list of tag/attribute references the `tags` loop of the source iterates
over, each carrying its tag name, the raw attribute value (`None` when
the attribute is absent) and the multi-valued `rel` attribute.
URL resolution (`urljoin`) is an oracle supplied by the environment.
The mutable run state is the visited set, the download queue contents and
an ordered trace of the observable actions. -/

/-- Source lines 25-28: the built-in resource-extension set. -/
def RESOURCE_TYPES : List Str :=
  [chars ".css", chars ".js", chars ".png", chars ".jpg", chars ".jpeg",
   chars ".gif", chars ".svg", chars ".woff", chars ".woff2", chars ".ttf",
   chars ".eot", chars ".otf", chars ".ico", chars ".mp4", chars ".webm",
   chars ".ogg", chars ".mp3", chars ".wav", chars ".pdf"]

inductive Tag where
  | img | script | link | a | video | audio | source
deriving DecidableEq

structure Ref where
  tag : Tag
  src : Option Str
  rel : List Str
deriving DecidableEq

inductive Event where
  /-- `visited.add(url)` (source line 100). -/
  | addVisited (url : Str)
  /-- the `requests.get` issued by `get_page` (source line 102). -/
  | fetchPage (url : Str)
  /-- `make_dirs(...)` (source lines 114 and 142). -/
  | mkdirs (path : Str)
  /-- `download_queue.put((url, path))` (source line 146). -/
  | enqueue (url : Str) (path : Str)
  /-- `resource[attr] = value` (source line 148). -/
  | rewrite (value : Str)
  /-- the final page serialization (source lines 152-154). -/
  | writePage (path : Str)
deriving DecidableEq

structure St where
  visited : List Str
  queue : List (Str × Str)
  events : List Event
deriving DecidableEq

structure Config where
  save_dir : Str
  max_depth : Nat
  include_types : List Str
  follow_redirects : Bool

structure Env where
  fetch : Str → Option (List Ref)
  resolve : Str → Str → Str

/-- Processing of one discovered reference (source lines 130-150).
`recurse` is the recursive re-entry into the Traversal Engine used for
followed anchors. -/
def processRef (resolve : Str → Str → Str) (recurse : Str → St → St) (cfg : Config)
    (pageUrl pageSavePath : Str) (r : Ref) (st : St) : St :=
  match r.src with
  | none => st
  | some src =>
    if src = [] ∨ chars "nofollow" ∈ r.rel then st
    else
      let resource_url := resolve pageUrl src
      let rpath := urlparse_path resource_url
      let resource_ext := (splitext_ext rpath).map Char.toLower
      if ¬ cfg.include_types = [] ∧ ¬ resource_ext ∈ cfg.include_types then st
      else if resource_ext ∈ RESOURCE_TYPES ∨ r.tag = Tag.a then
        let resource_path := joinPath cfg.save_dir (sanitize_filename (lstripSlash rpath))
        let st1 : St := { st with events := st.events ++ [Event.mkdirs (dirname resource_path)] }
        if is_valid_url resource_url ∧ ¬ resource_url ∈ st1.visited then
          if resource_ext ∈ RESOURCE_TYPES then
            let rel := relpath resource_path (dirname pageSavePath)
            { st1 with
              queue := st1.queue ++ [(resource_url, resource_path)],
              events := st1.events ++ [Event.enqueue resource_url resource_path,
                                       Event.rewrite (slashify rel)] }
          else if r.tag = Tag.a ∧ cfg.follow_redirects then recurse resource_url st1
          else st1
        else st1
      else st

def processRefs (resolve : Str → Str → Str) (recurse : Str → St → St) (cfg : Config)
    (pageUrl pageSavePath : Str) : List Ref → St → St
  | [], st => st
  | r :: rs, st =>
    processRefs resolve recurse cfg pageUrl pageSavePath rs
      (processRef resolve recurse cfg pageUrl pageSavePath r st)

/-- The recursive crawl (source lines 93-157).  `fuel` is an upper bound on
the remaining recursion depth, only there to make the recursion structural:
every call below decrements it while incrementing `depth`, so starting with
`fuel ≥ max_depth + 2 - depth` the `fuel = 0` branch is unreachable — the
`depth > max_depth` guard (source line 95) always fires first, exactly as
in the source. -/
def parse_and_download (env : Env) (cfg : Config) : Nat → Str → Nat → St → St
  | 0, _, _, st => st
  | Nat.succ fuel, url, depth, st =>
    if depth > cfg.max_depth then st
    else if url ∈ st.visited then st
    else
      let st1 : St := { st with visited := url :: st.visited,
                                events := st.events ++ [Event.addVisited url] }
      let st2 : St := { st1 with events := st1.events ++ [Event.fetchPage url] }
      match env.fetch url with
      | none => st2
      | some refs =>
        let save_path := pageSavePath cfg.save_dir url
        let st3 : St := { st2 with events := st2.events ++ [Event.mkdirs (dirname save_path)] }
        let st4 := processRefs env.resolve
          (fun u s => parse_and_download env cfg fuel u (depth + 1) s)
          cfg url save_path refs st3
        { st4 with events := st4.events ++ [Event.writePage (sanitize_filename save_path)] }

/-! ## Spec-side model of relative-path resolution -/

/-- Modelled from the spec: what it means for a relative path to
"resolve, from the referencing page's own output location, to" a target —
starting from the directory's component list, a `..` component removes the
last component, a `.` component is a no-op, and any other component is
appended.  This is the reviewer-facing meaning of resolution, not code of
the repository. -/
def resolveParts (base : List Str) : List Str → List Str
  | [] => base
  | c :: rest =>
    if c = chars ".." then
      if base = [] then resolveParts [chars ".."] rest
      else resolveParts base.dropLast rest
    else if c = chars "." then resolveParts base rest
    else resolveParts (base ++ [c]) rest

/-- Resolving a forward-slash relative path from a directory, as a string. -/
def resolveFrom (dir rel : Str) : Str :=
  joinComponents (resolveParts (splitComponents dir) (splitComponents rel))

/-! ## Visited-set invariants of the Traversal Engine

`addCount u` counts the `visited.add(u)` actions in a trace; `firstMark u`
finds whether the first visited-set/fetch action concerning `u` is an
insertion (`some false`) or a fetch (`some true`).  The run invariant says:
`u` is in the visited set iff it was inserted, each URL is inserted at most
once, and no URL is fetched before its insertion. -/

def addCount (u : Str) (l : List Event) : Nat := l.count (Event.addVisited u)

def omerge : Option Bool → Option Bool → Option Bool
  | some b, _ => some b
  | none, b => b

def firstMark (u : Str) : List Event → Option Bool
  | [] => none
  | Event.addVisited v :: rest => if v = u then some false else firstMark u rest
  | Event.fetchPage v :: rest => if v = u then some true else firstMark u rest
  | _ :: rest => firstMark u rest

def InvVE (vis : List Str) (evs : List Event) : Prop :=
  ∀ u : Str, (addCount u evs = if u ∈ vis then 1 else 0) ∧ ¬ firstMark u evs = some true

def VisitedInv (st : St) : Prop := InvVE st.visited st.events

/-- State `b` extends state `a`: the visited set, the queue and the event
trace only grow. -/
def Extends (a b : St) : Prop :=
  (∃ v, b.visited = v ++ a.visited) ∧ (∃ e, b.events = a.events ++ e)
    ∧ (∃ q, b.queue = a.queue ++ q)


/-! ## Concrete test fixtures -/

/-- A one-page site: the seed page `http://h/` references a single image
`/a.png`; every other URL fails to fetch. -/
def imgPageEnv : Env :=
  ⟨fun u => if u = chars "http://h/"
      then some [⟨Tag.img, some (chars "/a.png"), []⟩] else none,
    fun _ _ => chars "http://h/a.png"⟩

def siteCfg : Config := ⟨chars "site", 1, [], false⟩

def emptySt : St := ⟨[], [], []⟩

/-! ## Lemmas: relative paths computed by `relpath` resolve back to their
target (at component level) -/

theorem commonPrefixLen_le_right : ∀ pl sl : List Str, commonPrefixLen pl sl ≤ sl.length
  | [], _ => Nat.zero_le _
  | _ :: _, [] => Nat.zero_le _
  | a :: as, b :: bs => by
    by_cases h : a = b
    · simpa [commonPrefixLen, h] using commonPrefixLen_le_right as bs
    · simp [commonPrefixLen, h]

theorem take_commonPrefixLen_eq : ∀ pl sl : List Str,
    pl.take (commonPrefixLen pl sl) = sl.take (commonPrefixLen pl sl)
  | [], _ => by simp [commonPrefixLen]
  | _ :: _, [] => by simp [commonPrefixLen]
  | a :: as, b :: bs => by
    by_cases h : a = b
    · simp [commonPrefixLen, h, List.take_succ_cons, take_commonPrefixLen_eq as bs]
    · simp [commonPrefixLen, h]

theorem resolveParts_pops : ∀ (m : Nat) (base : List Str) (xs : List Str),
    m ≤ base.length →
    resolveParts base (List.replicate m (chars "..") ++ xs)
      = resolveParts (base.take (base.length - m)) xs := by
  intro m
  induction m with
  | zero => intro base xs _; simp
  | succ m ih =>
    intro base xs hm
    have hbase : ¬ base = [] := by
      intro h; subst h; simp at hm
    have hlen : m ≤ base.dropLast.length := by
      simp [List.length_dropLast]; omega
    calc resolveParts base (List.replicate (m + 1) (chars "..") ++ xs)
        = resolveParts base.dropLast (List.replicate m (chars "..") ++ xs) := by
          simp [List.replicate_succ, resolveParts, hbase]
      _ = resolveParts (base.dropLast.take (base.dropLast.length - m)) xs := ih _ _ hlen
      _ = resolveParts (base.take (base.length - (m + 1))) xs := by
          have h1 : base.dropLast.take (base.dropLast.length - m)
              = base.take (base.length - (m + 1)) := by
            simp [List.dropLast_eq_take, List.take_take, List.length_take]
            omega
          rw [h1]

theorem resolveParts_appends : ∀ (xs base : List Str),
    (∀ c ∈ xs, ¬ c = chars ".." ∧ ¬ c = chars ".") →
    resolveParts base xs = base ++ xs := by
  intro xs
  induction xs with
  | nil => intro base _; simp [resolveParts]
  | cons c rest ih =>
    intro base h
    have hc := h c (by simp)
    rw [resolveParts, if_neg hc.1, if_neg hc.2, ih (base ++ [c]) (fun d hd => h d (by simp [hd]))]
    simp


theorem Extends.rfl {a : St} : Extends a a :=
  ⟨⟨[], by simp⟩, ⟨[], by simp⟩, ⟨[], by simp⟩⟩

theorem Extends.trans {a b c : St} (h1 : Extends a b) (h2 : Extends b c) : Extends a c := by
  obtain ⟨⟨v1, hv1⟩, ⟨e1, he1⟩, ⟨q1, hq1⟩⟩ := h1
  obtain ⟨⟨v2, hv2⟩, ⟨e2, he2⟩, ⟨q2, hq2⟩⟩ := h2
  exact ⟨⟨v2 ++ v1, by simp [hv2, hv1]⟩, ⟨e1 ++ e2, by simp [he2, he1]⟩,
         ⟨q1 ++ q2, by simp [hq2, hq1]⟩⟩

theorem omerge_none (a : Option Bool) : omerge a none = a := by
  cases a <;> simp [omerge]

theorem firstMark_append (u : Str) :
    ∀ l1 l2 : List Event, firstMark u (l1 ++ l2) = omerge (firstMark u l1) (firstMark u l2)
  | [], l2 => by simp [firstMark, omerge]
  | e :: l1, l2 => by
    cases e with
    | addVisited v =>
      by_cases h : v = u
      · simp [firstMark, h, omerge]
      · simp only [List.cons_append, firstMark, if_neg h]
        exact firstMark_append u l1 l2
    | fetchPage v =>
      by_cases h : v = u
      · simp [firstMark, h, omerge]
      · simp only [List.cons_append, firstMark, if_neg h]
        exact firstMark_append u l1 l2
    | mkdirs p => simpa only [List.cons_append, firstMark] using firstMark_append u l1 l2
    | enqueue a b => simpa only [List.cons_append, firstMark] using firstMark_append u l1 l2
    | rewrite v => simpa only [List.cons_append, firstMark] using firstMark_append u l1 l2
    | writePage p => simpa only [List.cons_append, firstMark] using firstMark_append u l1 l2

theorem firstMark_ne_none_of_add_mem (u : Str) :
    ∀ l : List Event, Event.addVisited u ∈ l → ¬ firstMark u l = none := by
  intro l
  induction l with
  | nil => simp
  | cons e rest ih =>
    intro hmem
    cases e with
    | addVisited v =>
      by_cases h : v = u
      · simp [firstMark, h]
      · have : Event.addVisited u ∈ rest := by
          rcases List.mem_cons.1 hmem with h1 | h1
          · exact absurd (by injection h1.symm) h
          · exact h1
        simpa [firstMark, h] using ih this
    | fetchPage v =>
      by_cases h : v = u
      · simp [firstMark, h]
      · exact by simpa [firstMark, h] using ih (by simpa using hmem)
    | mkdirs p => exact by simpa [firstMark] using ih (by simpa using hmem)
    | enqueue a b => exact by simpa [firstMark] using ih (by simpa using hmem)
    | rewrite v => exact by simpa [firstMark] using ih (by simpa using hmem)
    | writePage p => exact by simpa [firstMark] using ih (by simpa using hmem)

theorem InvVE_append_neutral {vis evs} (es : List Event)
    (hadd : ∀ u : Str, addCount u es = 0) (hfm : ∀ u : Str, firstMark u es = none)
    (h : InvVE vis evs) : InvVE vis (evs ++ es) := by
  intro u
  obtain ⟨h1, h2⟩ := h u
  refine ⟨?_, ?_⟩
  · simp only [addCount, List.count_append] at *
    rw [h1]
    have := hadd u
    simp only [addCount] at this
    simp [this]
  · rw [firstMark_append, hfm u, omerge_none]
    exact h2

theorem InvVE_add {vis evs} (url : Str) (hnot : ¬ url ∈ vis) (h : InvVE vis evs) :
    InvVE (url :: vis) (evs ++ [Event.addVisited url]) := by
  intro u
  obtain ⟨h1, h2⟩ := h u
  by_cases hu : u = url
  · subst hu
    refine ⟨?_, ?_⟩
    · have h0 : List.count (Event.addVisited u) evs = 0 := by
        have h1a := h1
        simp only [addCount] at h1a
        rw [h1a]
        simp [hnot]
      simp [addCount, List.count_append, List.count_cons, h0, List.mem_cons]
    · rw [firstMark_append]
      rcases hfm : firstMark u evs with _ | b
      · simp [omerge, firstMark]
      · cases b
        · simp [omerge]
        · exact absurd hfm h2
  · have hu2 : ¬ url = u := fun hc => hu hc.symm
    refine ⟨?_, ?_⟩
    · simp only [addCount, List.count_append, List.count_cons, List.count_nil] at *
      simp [hu2, hu, List.mem_cons, h1]
    · rw [firstMark_append]
      have hz : firstMark u [Event.addVisited url] = none := by
        simp [firstMark, hu2]
      rw [hz, omerge_none]
      exact h2

theorem InvVE_fetch {vis evs} (url : Str) (hmem : url ∈ vis) (h : InvVE vis evs) :
    InvVE vis (evs ++ [Event.fetchPage url]) := by
  intro u
  obtain ⟨h1, h2⟩ := h u
  refine ⟨?_, ?_⟩
  · simp only [addCount, List.count_append, List.count_cons, List.count_nil] at *
    simpa using h1
  · rw [firstMark_append]
    by_cases hu : u = url
    · subst hu
      have hcnt : List.count (Event.addVisited u) evs = 1 := by
        have h1a := h1
        simp only [addCount] at h1a
        rw [h1a]
        simp [hmem]
      have hm : Event.addVisited u ∈ evs := by
        by_contra hnm
        rw [List.count_eq_zero.2 hnm] at hcnt
        exact absurd hcnt (by simp)
      have hne := firstMark_ne_none_of_add_mem u evs hm
      rcases hfm : firstMark u evs with _ | b
      · exact absurd hfm hne
      · cases b
        · simp [omerge]
        · exact absurd hfm h2
    · have hu2 : ¬ url = u := fun hc => hu hc.symm
      have hz : firstMark u [Event.fetchPage url] = none := by
        simp [firstMark, hu2]
      rw [hz, omerge_none]
      exact h2

theorem VisitedInv_neutral {vis : List Str} {evs : List Event}
    (q : List (Str × Str)) (es : List Event)
    (hadd : ∀ u : Str, addCount u es = 0) (hfm : ∀ u : Str, firstMark u es = none)
    (h : InvVE vis evs) : VisitedInv ⟨vis, q, evs ++ es⟩ :=
  InvVE_append_neutral es hadd hfm h

theorem Extends_events (st : St) (es : List Event) :
    Extends st ⟨st.visited, st.queue, st.events ++ es⟩ :=
  ⟨⟨[], rfl⟩, ⟨es, rfl⟩, ⟨[], (List.append_nil _).symm⟩⟩

theorem Extends_events2 (st : St) (q : List (Str × Str)) (es1 es2 : List Event) :
    Extends st ⟨st.visited, st.queue ++ q, (st.events ++ es1) ++ es2⟩ :=
  ⟨⟨[], rfl⟩, ⟨es1 ++ es2, by simp⟩, ⟨q, rfl⟩⟩

theorem Extends_visit2 (st : St) (url : Str) (es1 es2 : List Event) :
    Extends st ⟨url :: st.visited, st.queue, (st.events ++ es1) ++ es2⟩ :=
  ⟨⟨[url], rfl⟩, ⟨es1 ++ es2, by simp⟩, ⟨[], by simp⟩⟩

theorem Extends_visit3 (st : St) (url : Str) (es1 es2 es3 : List Event) :
    Extends st ⟨url :: st.visited, st.queue, ((st.events ++ es1) ++ es2) ++ es3⟩ :=
  ⟨⟨[url], rfl⟩, ⟨es1 ++ (es2 ++ es3), by simp⟩, ⟨[], by simp⟩⟩

theorem processRef_inv_ext (resolve : Str → Str → Str) (recurse : Str → St → St)
    (cfg : Config) (pu sp : Str) (r : Ref)
    (hrecI : ∀ u st, VisitedInv st → VisitedInv (recurse u st))
    (hrecE : ∀ u st, Extends st (recurse u st)) (st : St) :
    (VisitedInv st → VisitedInv (processRef resolve recurse cfg pu sp r st))
      ∧ Extends st (processRef resolve recurse cfg pu sp r st) := by
  cases hsrc : r.src with
  | none =>
    simp only [processRef, hsrc]
    exact ⟨fun h => h, Extends.rfl⟩
  | some src =>
    simp only [processRef, hsrc]
    split
    · exact ⟨fun h => h, Extends.rfl⟩
    · split
      · exact ⟨fun h => h, Extends.rfl⟩
      · split
        · split
          · split
            · constructor
              · intro h
                exact VisitedInv_neutral _ _
                  (by intro u; simp [addCount]) (by intro u; simp [firstMark])
                  (InvVE_append_neutral _
                    (by intro u; simp [addCount]) (by intro u; simp [firstMark]) h)
              · exact Extends_events2 st _ _ _
            · split
              · constructor
                · intro h
                  exact hrecI _ _ (VisitedInv_neutral _ _
                    (by intro u; simp [addCount]) (by intro u; simp [firstMark]) h)
                · exact (Extends_events st _).trans (hrecE _ _)
              · constructor
                · intro h
                  exact VisitedInv_neutral _ _
                    (by intro u; simp [addCount]) (by intro u; simp [firstMark]) h
                · exact Extends_events st _
          · constructor
            · intro h
              exact VisitedInv_neutral _ _
                (by intro u; simp [addCount]) (by intro u; simp [firstMark]) h
            · exact Extends_events st _
        · exact ⟨fun h => h, Extends.rfl⟩

theorem processRefs_inv_ext (resolve : Str → Str → Str) (recurse : Str → St → St)
    (cfg : Config) (pu sp : Str)
    (hrecI : ∀ u st, VisitedInv st → VisitedInv (recurse u st))
    (hrecE : ∀ u st, Extends st (recurse u st)) :
    ∀ (refs : List Ref) (st : St),
      (VisitedInv st → VisitedInv (processRefs resolve recurse cfg pu sp refs st))
        ∧ Extends st (processRefs resolve recurse cfg pu sp refs st)
  | [], st => by
    simp only [processRefs]
    exact ⟨fun h => h, Extends.rfl⟩
  | r :: rs, st => by
    have h1 := processRef_inv_ext resolve recurse cfg pu sp r hrecI hrecE st
    have h2 := processRefs_inv_ext resolve recurse cfg pu sp hrecI hrecE rs
      (processRef resolve recurse cfg pu sp r st)
    simp only [processRefs]
    exact ⟨fun h => h2.1 (h1.1 h), h1.2.trans h2.2⟩

theorem parse_and_download_inv_ext (env : Env) (cfg : Config) :
    ∀ (fuel : Nat) (url : Str) (depth : Nat) (st : St),
      (VisitedInv st → VisitedInv (parse_and_download env cfg fuel url depth st))
        ∧ Extends st (parse_and_download env cfg fuel url depth st)
  | 0, url, depth, st => by
    simp only [parse_and_download]
    exact ⟨fun h => h, Extends.rfl⟩
  | Nat.succ fuel, url, depth, st => by
    have hrecI : ∀ u s, VisitedInv s → VisitedInv (parse_and_download env cfg fuel u (depth + 1) s) :=
      fun u s => (parse_and_download_inv_ext env cfg fuel u (depth + 1) s).1
    have hrecE : ∀ u s, Extends s (parse_and_download env cfg fuel u (depth + 1) s) :=
      fun u s => (parse_and_download_inv_ext env cfg fuel u (depth + 1) s).2
    simp only [parse_and_download]
    split
    · exact ⟨fun h => h, Extends.rfl⟩
    · split
      · exact ⟨fun h => h, Extends.rfl⟩
      · rename_i hdepth hmem
        cases hfetch : env.fetch url with
        | none =>
          simp only [hfetch]
          constructor
          · intro h
            exact InvVE_fetch url (by simp) (InvVE_add url hmem h)
          · exact Extends_visit2 st url _ _
        | some refs =>
          simp only [hfetch]
          constructor
          · intro h
            refine VisitedInv_neutral _ _
              (by intro u; simp [addCount]) (by intro u; simp [firstMark]) ?_
            exact (processRefs_inv_ext env.resolve _ cfg url _ hrecI hrecE refs _).1
              (InvVE_append_neutral _
                (by intro u; simp [addCount]) (by intro u; simp [firstMark])
                (InvVE_fetch url (by simp) (InvVE_add url hmem h)))
          · have hstep : Extends st ⟨url :: st.visited, st.queue,
                ((st.events ++ [Event.addVisited url]) ++ [Event.fetchPage url])
                  ++ [Event.mkdirs (dirname (pageSavePath cfg.save_dir url))]⟩ :=
              Extends_visit3 st url _ _ _
            have hrefs := (processRefs_inv_ext env.resolve
              (fun u s => parse_and_download env cfg fuel u (depth + 1) s) cfg url
              (pageSavePath cfg.save_dir url) hrecI hrecE refs
              ⟨url :: st.visited, st.queue,
                ((st.events ++ [Event.addVisited url]) ++ [Event.fetchPage url])
                  ++ [Event.mkdirs (dirname (pageSavePath cfg.save_dir url))]⟩).2
            exact (hstep.trans hrefs).trans (Extends_events _ _)

/-! ## Computation lemmas for `urlsplit` on well-formed URLs -/

theorem takeUntil_eq_self_of_not_mem {c : Char} : ∀ {l : Str}, ¬ c ∈ l → takeUntil c l = l
  | [], _ => rfl
  | x :: xs, h => by
    have hx : ¬ x = c := fun hc => h (hc ▸ List.mem_cons_self x xs)
    simp only [takeUntil, if_neg hx]
    exact congrArg (x :: ·) (takeUntil_eq_self_of_not_mem (fun hc => h (List.mem_cons_of_mem x hc)))

theorem takeUntil_append_left {c : Char} : ∀ {l1 : Str} (l2 : Str), ¬ c ∈ l1 →
    takeUntil c (l1 ++ c :: l2) = l1
  | [], l2, _ => by simp [takeUntil]
  | x :: xs, l2, h => by
    have hx : ¬ x = c := fun hc => h (hc ▸ List.mem_cons_self x xs)
    simp only [List.cons_append, takeUntil, if_neg hx]
    exact congrArg (x :: ·) (takeUntil_append_left l2 (fun hc => h (List.mem_cons_of_mem x hc)))

theorem dropThrough_eq_nil_of_not_mem {c : Char} : ∀ {l : Str}, ¬ c ∈ l → dropThrough c l = []
  | [], _ => rfl
  | x :: xs, h => by
    have hx : ¬ x = c := fun hc => h (hc ▸ List.mem_cons_self x xs)
    simp only [dropThrough, if_neg hx]
    exact dropThrough_eq_nil_of_not_mem (fun hc => h (List.mem_cons_of_mem x hc))

theorem dropThrough_append_left {c : Char} : ∀ {l1 : Str} (l2 : Str), ¬ c ∈ l1 →
    dropThrough c (l1 ++ c :: l2) = l2
  | [], l2, _ => by simp [dropThrough]
  | x :: xs, l2, h => by
    have hx : ¬ x = c := fun hc => h (hc ▸ List.mem_cons_self x xs)
    simp only [List.cons_append, dropThrough, if_neg hx]
    exact dropThrough_append_left l2 (fun hc => h (List.mem_cons_of_mem x hc))

theorem takeWhile_append_all {p : Char → Bool} : ∀ {l1 : Str} (l2 : Str),
    (∀ x ∈ l1, p x = true) → List.takeWhile p (l1 ++ l2) = l1 ++ List.takeWhile p l2
  | [], l2, _ => rfl
  | x :: xs, l2, h => by
    simp only [List.cons_append, List.takeWhile_cons, h x (List.mem_cons_self x xs)]
    exact congrArg (x :: ·) (takeWhile_append_all l2 (fun y hy => h y (List.mem_cons_of_mem x hy)))

theorem dropWhile_append_all {p : Char → Bool} : ∀ {l1 : Str} (l2 : Str),
    (∀ x ∈ l1, p x = true) → List.dropWhile p (l1 ++ l2) = List.dropWhile p l2
  | [], l2, _ => rfl
  | x :: xs, l2, h => by
    simp only [List.cons_append, List.dropWhile_cons, h x (List.mem_cons_self x xs), if_pos]
    exact dropWhile_append_all l2 (fun y hy => h y (List.mem_cons_of_mem x hy))

theorem urlsplit_wellformed (sch host pth q f : Str)
    (hs0 : ¬ sch = []) (hs : ∀ c ∈ sch, isSchemeChar c = true)
    (hh : ∀ c ∈ host, notNetlocDelim c = true)
    (hp1 : ¬ '?' ∈ pth) (hp2 : ¬ '#' ∈ pth) (hq : ¬ '#' ∈ q) :
    urlsplit (sch ++ ':' :: '/' :: '/' :: (host ++ '/' :: (pth ++ '?' :: (q ++ '#' :: f))))
      = ⟨sch.map Char.toLower, host, '/' :: pth, q, f⟩
  ∧ urlsplit (sch ++ ':' :: '/' :: '/' :: (host ++ '/' :: pth))
      = ⟨sch.map Char.toLower, host, '/' :: pth, [], []⟩ := by
  have hsc : ¬ ':' ∈ sch := fun hm => by simpa [isSchemeChar] using hs _ hm
  have hsh : ¬ '#' ∈ sch := fun hm => by simpa [isSchemeChar] using hs _ hm
  have hhh : ¬ '#' ∈ host := fun hm => by simpa [notNetlocDelim] using hh _ hm
  have hall : sch.all isSchemeChar = true := List.all_eq_true.2 hs
  constructor
  · have e1 : sch ++ ':' :: '/' :: '/' :: (host ++ '/' :: (pth ++ '?' :: (q ++ '#' :: f)))
        = (sch ++ ':' :: '/' :: '/' :: (host ++ '/' :: (pth ++ '?' :: q))) ++ '#' :: f := by
      simp
    have hBh : ¬ '#' ∈ sch ++ ':' :: '/' :: '/' :: (host ++ '/' :: (pth ++ '?' :: q)) := by
      simp [List.mem_append, List.mem_cons, hsh, hhh, hp2, hq]
    have h1 : takeUntil '#' (sch ++ ':' :: '/' :: '/' :: (host ++ '/' :: (pth ++ '?' :: (q ++ '#' :: f))))
        = sch ++ ':' :: '/' :: '/' :: (host ++ '/' :: (pth ++ '?' :: q)) := by
      rw [e1]; exact takeUntil_append_left f hBh
    have h2 : dropThrough '#' (sch ++ ':' :: '/' :: '/' :: (host ++ '/' :: (pth ++ '?' :: (q ++ '#' :: f)))) = f := by
      rw [e1]; exact dropThrough_append_left f hBh
    have h3 : takeUntil ':' (sch ++ ':' :: '/' :: '/' :: (host ++ '/' :: (pth ++ '?' :: q))) = sch :=
      takeUntil_append_left _ hsc
    have h4 : dropThrough ':' (sch ++ ':' :: '/' :: '/' :: (host ++ '/' :: (pth ++ '?' :: q)))
        = '/' :: '/' :: (host ++ '/' :: (pth ++ '?' :: q)) :=
      dropThrough_append_left _ hsc
    have h5 : (sch ++ ':' :: '/' :: '/' :: (host ++ '/' :: (pth ++ '?' :: q))).contains ':' = true := by
      simp [List.mem_append, List.mem_cons]
    have h6 : (host ++ '/' :: (pth ++ '?' :: q)).takeWhile notNetlocDelim = host := by
      rw [takeWhile_append_all _ hh]
      simp [List.takeWhile_cons, notNetlocDelim]
    have h7 : (host ++ '/' :: (pth ++ '?' :: q)).dropWhile notNetlocDelim = '/' :: (pth ++ '?' :: q) := by
      rw [dropWhile_append_all _ hh]
      simp [List.dropWhile_cons, notNetlocDelim]
    have h8 : takeUntil '?' ('/' :: (pth ++ '?' :: q)) = '/' :: pth := by
      have : takeUntil '?' (pth ++ '?' :: q) = pth := takeUntil_append_left q hp1
      simp [takeUntil, this]
    have h9 : dropThrough '?' ('/' :: (pth ++ '?' :: q)) = q := by
      have : dropThrough '?' (pth ++ '?' :: q) = q := dropThrough_append_left q hp1
      simp [dropThrough, this]
    simp only [urlsplit, h1, h2, h3, h4, h5, hall, hs0]
    simp [h6, h7, h8, h9, hs0]
  · have hBh2 : ¬ '#' ∈ sch ++ ':' :: '/' :: '/' :: (host ++ '/' :: pth) := by
      simp [List.mem_append, List.mem_cons, hsh, hhh, hp2]
    have h1 : takeUntil '#' (sch ++ ':' :: '/' :: '/' :: (host ++ '/' :: pth))
        = sch ++ ':' :: '/' :: '/' :: (host ++ '/' :: pth) :=
      takeUntil_eq_self_of_not_mem hBh2
    have h2 : dropThrough '#' (sch ++ ':' :: '/' :: '/' :: (host ++ '/' :: pth)) = [] :=
      dropThrough_eq_nil_of_not_mem hBh2
    have h3 : takeUntil ':' (sch ++ ':' :: '/' :: '/' :: (host ++ '/' :: pth)) = sch :=
      takeUntil_append_left _ hsc
    have h4 : dropThrough ':' (sch ++ ':' :: '/' :: '/' :: (host ++ '/' :: pth))
        = '/' :: '/' :: (host ++ '/' :: pth) :=
      dropThrough_append_left _ hsc
    have h5 : (sch ++ ':' :: '/' :: '/' :: (host ++ '/' :: pth)).contains ':' = true := by
      simp [List.mem_append, List.mem_cons]
    have h6 : (host ++ '/' :: pth).takeWhile notNetlocDelim = host := by
      rw [takeWhile_append_all _ hh]
      simp [List.takeWhile_cons, notNetlocDelim]
    have h7 : (host ++ '/' :: pth).dropWhile notNetlocDelim = '/' :: pth := by
      rw [dropWhile_append_all _ hh]
      simp [List.dropWhile_cons, notNetlocDelim]
    have hnp : ¬ '?' ∈ ('/' :: pth) := by simp [List.mem_cons, hp1]
    have h8 : takeUntil '?' ('/' :: pth) = '/' :: pth := takeUntil_eq_self_of_not_mem hnp
    have h9 : dropThrough '?' ('/' :: pth) = [] := dropThrough_eq_nil_of_not_mem hnp
    simp only [urlsplit, h1, h2, h3, h4, h5, hall, hs0]
    simp [h6, h7, h8, h9, hs0]

/-! ## Claims -/

/-- C5: for every Crawl Task whose depth exceeds the configured maximum
depth, the Traversal Engine returns immediately without performing any
fetch, any Visited Set insertion, or any other action (the state — visited
set, queue and event trace — is returned unchanged); likewise it returns
immediately when the URL is already in the Visited Set. -/
theorem c5_guards_return_unchanged (env : Env) (cfg : Config) (fuel : Nat)
    (url : Str) (depth : Nat) (st : St) :
    (depth > cfg.max_depth → parse_and_download env cfg fuel url depth st = st)
  ∧ (url ∈ st.visited → parse_and_download env cfg fuel url depth st = st) := by
  constructor
  · intro h
    cases fuel with
    | zero => rfl
    | succ f => simp [parse_and_download, h]
  · intro h
    cases fuel with
    | zero => rfl
    | succ f =>
      by_cases hd : depth > cfg.max_depth
      · simp [parse_and_download, hd]
      · simp [parse_and_download, hd, h]

/-- Witness for C5 at depth 2 with maximum depth 1, and at depth 0 with the
URL already visited. -/
theorem c5_guards_return_unchanged_witness :
    parse_and_download imgPageEnv siteCfg 5 (chars "http://h/") 2 emptySt = emptySt
  ∧ parse_and_download imgPageEnv siteCfg 5 (chars "http://h/") 0
      ⟨[chars "http://h/"], [], []⟩ = ⟨[chars "http://h/"], [], []⟩ :=
  ⟨(c5_guards_return_unchanged imgPageEnv siteCfg 5 (chars "http://h/") 2 emptySt).1
      (by decide),
   (c5_guards_return_unchanged imgPageEnv siteCfg 5 (chars "http://h/") 0
      ⟨[chars "http://h/"], [], []⟩).2 (by decide)⟩

/-- C8: an anchor reference carrying a `nofollow` marker in its `rel`
attribute is always rejected — the state is returned unchanged, so it is
never enqueued, never rewritten and never followed recursively — for every
configuration (in particular both values of `follow_redirects`) and every
recursion continuation. -/
theorem c8_nofollow_always_rejected (resolve : Str → Str → Str)
    (recurse : Str → St → St) (cfg : Config) (pu sp : Str) (r : Ref) (st : St)
    (htag : r.tag = Tag.a) (hrel : chars "nofollow" ∈ r.rel) :
    processRef resolve recurse cfg pu sp r st = st := by
  cases hsrc : r.src with
  | none => simp [processRef, hsrc]
  | some src => simp [processRef, hsrc, hrel]

/-- Witness for C8: an anchor to `/b.html` with `rel="nofollow"` under a
configuration with `follow_redirects` on. -/
theorem c8_nofollow_always_rejected_witness :
    processRef (fun _ _ => chars "http://h/b.html") (fun _ s => s)
      ⟨chars "site", 1, [], true⟩ (chars "http://h/") (chars "site/index.html")
      ⟨Tag.a, some (chars "/b.html"), [chars "nofollow"]⟩ emptySt = emptySt :=
  c8_nofollow_always_rejected (fun _ _ => chars "http://h/b.html") (fun _ s => s)
    ⟨chars "site", 1, [], true⟩ (chars "http://h/") (chars "site/index.html")
    ⟨Tag.a, some (chars "/b.html"), [chars "nofollow"]⟩ emptySt rfl (by decide)

/-- C6: a Download Task whose declared content length strictly exceeds
`max_size` megabytes is abandoned before anything is written: `save_file`
returns `false` and no file is produced; and the worker loop always
continues with the remaining queue items after a processed task. -/
theorem c6_oversize_skipped (resp : Response) (p : Str) (max_size : Nat)
    (env : DLEnv) (ms : Nat) (u sp : Str) (rest : List QItem)
    (h : resp.contentLength > max_size * 1024 * 1024) :
    save_file (Except.ok resp) p max_size = ⟨false, none⟩
  ∧ download_worker_run env ms (some (u, sp) :: rest)
      = ((download_worker_run env ms rest).1,
         (u, (save_file (env.fetchFile u) sp ms).ok)
           :: (download_worker_run env ms rest).2) := by
  constructor
  · simp [save_file, h]
  · simp [download_worker_run, unpackPair]

/-- Witness for C6: declared length 1 byte with `max_size = 0` MB. -/
theorem c6_oversize_skipped_witness :
    save_file (Except.ok ⟨1, [chars "Y"], false⟩) (chars "f.bin") 0 = ⟨false, none⟩
  ∧ download_worker_run ⟨fun _ => Except.ok ⟨1, [chars "Y"], false⟩⟩ 0
      (some (chars "http://h/f.bin", chars "f.bin") :: [])
      = ((download_worker_run ⟨fun _ => Except.ok ⟨1, [chars "Y"], false⟩⟩ 0 []).1,
         (chars "http://h/f.bin",
          (save_file ((⟨fun _ => Except.ok ⟨1, [chars "Y"], false⟩⟩ : DLEnv).fetchFile
            (chars "http://h/f.bin")) (chars "f.bin") 0).ok)
           :: (download_worker_run ⟨fun _ => Except.ok ⟨1, [chars "Y"], false⟩⟩ 0 []).2) :=
  c6_oversize_skipped ⟨1, [chars "Y"], false⟩ (chars "f.bin") 0
    ⟨fun _ => Except.ok ⟨1, [chars "Y"], false⟩⟩ 0 (chars "http://h/f.bin") (chars "f.bin") []
    (by decide)

/-- C9: transport/HTTP errors are contained at the failing URL's boundary:
a failed resource fetch yields `save_file = ⟨false, none⟩` (logged failure,
no file at the destination path), the worker loop still processes every
remaining queue item, and a failed page fetch makes `parse_and_download`
return normally having only recorded the visit and the fetch attempt — so
the recursion of the caller continues and the run completes. -/
theorem c9_errors_contained (p : Str) (max_size : Nat)
    (env : DLEnv) (ms : Nat) (u sp : Str) (rest : List QItem)
    (envT : Env) (cfg : Config) (fuel : Nat) (url : Str) (depth : Nat) (st : St)
    (hfail : env.fetchFile u = Except.error ())
    (hfetch : envT.fetch url = none)
    (hd : ¬ depth > cfg.max_depth) (hv : ¬ url ∈ st.visited) :
    save_file (Except.error ()) p max_size = ⟨false, none⟩
  ∧ download_worker_run env ms (some (u, sp) :: rest)
      = ((download_worker_run env ms rest).1,
         (u, false) :: (download_worker_run env ms rest).2)
  ∧ parse_and_download envT cfg (fuel + 1) url depth st
      = { st with visited := url :: st.visited,
                  events := (st.events ++ [Event.addVisited url])
                    ++ [Event.fetchPage url] } := by
  refine ⟨rfl, ?_, ?_⟩
  · simp [download_worker_run, unpackPair, hfail, save_file]
  · simp only [parse_and_download]
    rw [if_neg hd, if_neg hv, hfetch]

/-- Witness for C9: a resource whose fetch fails and a page whose fetch
fails, inside a fresh run state. -/
theorem c9_errors_contained_witness :
    save_file (Except.error ()) (chars "site/a.png") 50 = ⟨false, none⟩
  ∧ download_worker_run ⟨fun _ => Except.error ()⟩ 50
      (some (chars "http://h/a.png", chars "site/a.png") :: [])
      = ((download_worker_run ⟨fun _ => Except.error ()⟩ 50 []).1,
         (chars "http://h/a.png", false)
           :: (download_worker_run ⟨fun _ => Except.error ()⟩ 50 []).2)
  ∧ parse_and_download ⟨fun _ => none, fun _ s => s⟩ siteCfg (2 + 1)
      (chars "http://h/") 0 emptySt
      = { emptySt with visited := chars "http://h/" :: emptySt.visited,
                       events := (emptySt.events ++ [Event.addVisited (chars "http://h/")])
                         ++ [Event.fetchPage (chars "http://h/")] } :=
  c9_errors_contained (chars "site/a.png") 50 ⟨fun _ => Except.error ()⟩ 50
    (chars "http://h/a.png") (chars "site/a.png") [] ⟨fun _ => none, fun _ s => s⟩
    siteCfg 2 (chars "http://h/") 0 emptySt rfl rfl (by decide) (by decide)

/-- C10: an anchor whose resolved URL path carries an extension in
`RESOURCE_TYPES` and which passes the classifier's other guards (nonempty
raw value, no `nofollow`, extension admitted by the include filter, valid
resolved URL not in the visited set) is treated as a resource — it is
enqueued on the download queue and its attribute rewritten to the relative
path — and the recursion continuation is never invoked, for every
configuration (in particular when `follow_redirects` is enabled). -/
theorem c10_anchor_with_resource_extension (resolve : Str → Str → Str)
    (recurse : Str → St → St) (cfg : Config) (pu sp : Str) (r : Ref) (st : St)
    (src : Str) (hsrc : r.src = some src) (hne : ¬ src = [])
    (hrel : ¬ chars "nofollow" ∈ r.rel) (htag : r.tag = Tag.a)
    (hext : (splitext_ext (urlparse_path (resolve pu src))).map Char.toLower
      ∈ RESOURCE_TYPES)
    (hinc : cfg.include_types = []
      ∨ (splitext_ext (urlparse_path (resolve pu src))).map Char.toLower
          ∈ cfg.include_types)
    (hval : is_valid_url (resolve pu src) = true)
    (hnv : ¬ resolve pu src ∈ st.visited) :
    processRef resolve recurse cfg pu sp r st =
      { st with
        queue := st.queue ++ [(resolve pu src,
          joinPath cfg.save_dir (sanitize_filename (lstripSlash
            (urlparse_path (resolve pu src)))))],
        events := (st.events ++ [Event.mkdirs (dirname (joinPath cfg.save_dir
            (sanitize_filename (lstripSlash (urlparse_path (resolve pu src))))))])
          ++ [Event.enqueue (resolve pu src) (joinPath cfg.save_dir
                (sanitize_filename (lstripSlash (urlparse_path (resolve pu src))))),
              Event.rewrite (slashify (relpath (joinPath cfg.save_dir
                (sanitize_filename (lstripSlash (urlparse_path (resolve pu src)))))
                (dirname sp)))] } := by
  simp only [processRef, hsrc]
  rw [if_neg (by simp [hne, hrel]),
      if_neg (by intro hc; rcases hinc with h | h; exacts [hc.1 h, hc.2 h]),
      if_pos (Or.inl hext), if_pos ⟨hval, hnv⟩, if_pos hext]

/-- Witness for C10: `<a href="/d.pdf">` with `follow_redirects` enabled. -/
theorem c10_anchor_with_resource_extension_witness :
    processRef (fun _ _ => chars "http://h/d.pdf") (fun _ s => s)
      ⟨chars "site", 1, [], true⟩ (chars "http://h/") (chars "site/index.html")
      ⟨Tag.a, some (chars "/d.pdf"), []⟩ emptySt =
      { emptySt with
        queue := emptySt.queue ++ [(chars "http://h/d.pdf",
          joinPath (chars "site") (sanitize_filename (lstripSlash
            (urlparse_path (chars "http://h/d.pdf")))))],
        events := (emptySt.events ++ [Event.mkdirs (dirname (joinPath (chars "site")
            (sanitize_filename (lstripSlash (urlparse_path (chars "http://h/d.pdf"))))))])
          ++ [Event.enqueue (chars "http://h/d.pdf") (joinPath (chars "site")
                (sanitize_filename (lstripSlash (urlparse_path (chars "http://h/d.pdf"))))),
              Event.rewrite (slashify (relpath (joinPath (chars "site")
                (sanitize_filename (lstripSlash (urlparse_path (chars "http://h/d.pdf")))))
                (dirname (chars "site/index.html"))))] } :=
  c10_anchor_with_resource_extension (fun _ _ => chars "http://h/d.pdf") (fun _ s => s)
    ⟨chars "site", 1, [], true⟩ (chars "http://h/") (chars "site/index.html")
    ⟨Tag.a, some (chars "/d.pdf"), []⟩ emptySt (chars "/d.pdf") rfl (by decide)
    (by decide) rfl (by decide) (Or.inl rfl) (by decide) (by decide)

/-- C7: the Path Mapper's directory-index defaulting — a URL path ending in
`/` maps to that directory's `index.html`; a path whose last segment has no
extension maps to `<segment>/index.html`; and for a well-formed URL
`scheme://host/path?query#fragment` the parsed path (the input of the Path
Mapper) is exactly `/path`, the same as for the URL without its query and
fragment — so the query and fragment are not part of the computed
destination path. -/
theorem c7_path_mapper_rules (p sch host pth q f : Str)
    (hs0 : ¬ sch = []) (hs : ∀ c ∈ sch, isSchemeChar c = true)
    (hh : ∀ c ∈ host, notNetlocDelim c = true)
    (hp1 : ¬ '?' ∈ pth) (hp2 : ¬ '#' ∈ pth) (hq : ¬ '#' ∈ q) :
    (p.getLast? = some '/' → mapPagePath p = p ++ chars "index.html")
  ∧ (¬ p.getLast? = some '/' → splitext_ext p = [] →
      mapPagePath p = p ++ chars "/index.html")
  ∧ urlparse_path (sch ++ ':' :: '/' :: '/' :: (host ++ '/' :: (pth ++ '?' :: (q ++ '#' :: f))))
      = urlparse_path (sch ++ ':' :: '/' :: '/' :: (host ++ '/' :: pth))
  ∧ urlparse_path (sch ++ ':' :: '/' :: '/' :: (host ++ '/' :: pth)) = '/' :: pth := by
  have hu := urlsplit_wellformed sch host pth q f hs0 hs hh hp1 hp2 hq
  refine ⟨?_, ?_, ?_, ?_⟩
  · intro h
    simp [mapPagePath, h]
  · intro h1 h2
    simp [mapPagePath, h1, h2]
  · simp [urlparse_path, hu.1, hu.2]
  · simp [urlparse_path, hu.2]

/-- Witness for C7 at `/a/`, `/a/b`, and `http://h/x.html?k=v#frag`. -/
theorem c7_path_mapper_rules_witness :
    (mapPagePath (chars "/a/") = chars "/a/" ++ chars "index.html")
  ∧ (mapPagePath (chars "/a/b") = chars "/a/b" ++ chars "/index.html")
  ∧ urlparse_path (chars "http" ++ ':' :: '/' :: '/' ::
      (chars "h" ++ '/' :: (chars "x.html" ++ '?' :: (chars "k=v" ++ '#' :: chars "frag"))))
      = urlparse_path (chars "http" ++ ':' :: '/' :: '/' :: (chars "h" ++ '/' :: chars "x.html"))
  ∧ urlparse_path (chars "http" ++ ':' :: '/' :: '/' :: (chars "h" ++ '/' :: chars "x.html"))
      = '/' :: chars "x.html" :=
  have h1 := c7_path_mapper_rules (chars "/a/") (chars "http") (chars "h") (chars "x.html")
    (chars "k=v") (chars "frag") (by decide) (by decide) (by decide)
    (by decide) (by decide) (by decide)
  have h2 := c7_path_mapper_rules (chars "/a/b") (chars "http") (chars "h") (chars "x.html")
    (chars "k=v") (chars "frag") (by decide) (by decide) (by decide)
    (by decide) (by decide) (by decide)
  ⟨h1.1 (by decide), h2.2.1 (by decide) (by decide), h1.2.2.1, h1.2.2.2⟩

/-- C1 (counterexample): in a full run on a one-page site whose page
references the image `http://h/a.png`, the image URL is enqueued on the
download queue, yet the final visited set contains only the page URL —
since the visited set never shrinks (`c1` amended theorem), the resource
URL was never inserted, refuting "resource URLs are inserted into the
Visited Set before being placed on the Download Queue". -/
theorem c1_resource_never_inserted_counterexample :
    parse_and_download imgPageEnv siteCfg 3 (chars "http://h/") 0 emptySt
      = { visited := [chars "http://h/"],
          queue := [(chars "http://h/a.png", chars "site/a.png")],
          events := [Event.addVisited (chars "http://h/"),
                     Event.fetchPage (chars "http://h/"),
                     Event.mkdirs (chars "site"),
                     Event.mkdirs (chars "site"),
                     Event.enqueue (chars "http://h/a.png") (chars "site/a.png"),
                     Event.rewrite (chars "a.png"),
                     Event.writePage (chars "site_index.html")] }
  ∧ ¬ chars "http://h/a.png" ∈
      (parse_and_download imgPageEnv siteCfg 3 (chars "http://h/") 0 emptySt).visited := by
  constructor
  · decide
  · decide

/-- C1 (amended): page URLs obey the claimed discipline — in any traversal
step the visited set, download queue and event trace only grow, and the run
invariant `VisitedInv` (each URL is in the visited set iff it was inserted,
each URL is inserted at most once, and no URL's page fetch is attempted
before its insertion) is preserved.  Resource URLs, however, are never
inserted at all (see the counterexample), so nothing bounds how often one
resource URL is enqueued across distinct referencing pages. -/
theorem c1_visited_monotone_and_once (env : Env) (cfg : Config) (fuel : Nat)
    (url : Str) (depth : Nat) (st : St) (h : VisitedInv st) :
    Extends st (parse_and_download env cfg fuel url depth st)
  ∧ VisitedInv (parse_and_download env cfg fuel url depth st) :=
  ⟨(parse_and_download_inv_ext env cfg fuel url depth st).2,
   (parse_and_download_inv_ext env cfg fuel url depth st).1 h⟩

/-- Witness for the amended C1 on the one-page site run from a fresh
state. -/
theorem c1_visited_monotone_and_once_witness :
    Extends emptySt (parse_and_download imgPageEnv siteCfg 3 (chars "http://h/") 0 emptySt)
  ∧ VisitedInv (parse_and_download imgPageEnv siteCfg 3 (chars "http://h/") 0 emptySt) :=
  c1_visited_monotone_and_once imgPageEnv siteCfg 3 (chars "http://h/") 0 emptySt
    (fun u => ⟨by simp [addCount, emptySt], by simp [firstMark, emptySt]⟩)

/-- C2: evaluating the worker loop on a queue holding one task followed by
the `None` stop sentinel: the task is processed, but the sentinel kills the
worker with a `TypeError` raised by the tuple unpacking
`url, save_path = download_queue.get()` — the `if url is None: break`
check on the next source line is unreachable, so the worker never exits its
loop through the intended clean stop. -/
theorem c2_sentinel_crashes_worker :
    download_worker_run ⟨fun _ => Except.error ()⟩ 50
      [some (chars "http://h/a.png", chars "site/a.png"), none]
      = (WorkerExit.typeError, [(chars "http://h/a.png", false)])
  ∧ ¬ (download_worker_run ⟨fun _ => Except.error ()⟩ 50
          [some (chars "http://h/a.png", chars "site/a.png"), none]).1
        = WorkerExit.cleanStop := by
  constructor
  · decide
  · decide

/-- C3 (counterexample): for the page `http://h/a/b.html` under output root
`site`, the computed destination path is `site/a/b.html`, but
`sanitize_filename` — applied to the whole computed path before the page is
written (source line 152) — replaces its directory separators by
underscores: the page is written to the flat name `site_a_b.html`, so the
mapped local path does not preserve the URL's directory hierarchy. -/
theorem c3_separators_altered_counterexample :
    pageSavePath (chars "site") (chars "http://h/a/b.html") = chars "site/a/b.html"
  ∧ sanitize_filename (chars "site/a/b.html") = chars "site_a_b.html"
  ∧ writtenPagePath (chars "site") (chars "http://h/a/b.html") = chars "site_a_b.html" := by
  refine ⟨by decide, by decide, by decide⟩

/-- Every character of a sanitized name is outside the invalid set. -/
theorem sanitize_filename_no_invalid (p : Str) (c : Char)
    (hc : c ∈ sanitize_filename p) : isInvalidFileChar c = false := by
  obtain ⟨a, _, rfl⟩ := List.mem_map.1 hc
  by_cases hb : isInvalidFileChar a = true
  · rw [if_pos hb]
    decide
  · rw [if_neg hb]
    simpa using hb

/-- C3 (amended): `sanitize_filename` replaces the characters
`\\ / * ? : " < > |` with `_` throughout the whole string it is given —
including directory separators.  Consequently its output, and in particular
the path a page is actually written to, contains no `/` at all: the
computed path's hierarchy is flattened into one file name rather than
preserved. -/
theorem c3_sanitize_flattens_whole_path (p d u : Str) (c : Char)
    (hc : c ∈ sanitize_filename p) :
    isInvalidFileChar c = false
  ∧ ¬ '/' ∈ sanitize_filename p
  ∧ ¬ '/' ∈ writtenPagePath d u := by
  refine ⟨sanitize_filename_no_invalid p c hc, fun hm => ?_, fun hm => ?_⟩
  · have h := sanitize_filename_no_invalid p '/' hm
    simp [isInvalidFileChar] at h
  · have h := sanitize_filename_no_invalid (pageSavePath d u) '/' hm
    simp [isInvalidFileChar] at h

/-- Witness for the amended C3 at `a/b` (the character `a` survives, and
neither the sanitized name nor the written page path contains a slash). -/
theorem c3_sanitize_flattens_whole_path_witness :
    isInvalidFileChar 'a' = false
  ∧ ¬ '/' ∈ sanitize_filename (chars "a/b")
  ∧ ¬ '/' ∈ writtenPagePath (chars "site") (chars "http://h/a/b.html") :=
  c3_sanitize_flattens_whole_path (chars "a/b") (chars "site")
    (chars "http://h/a/b.html") 'a' (by decide)

/-- C4 (counterexample): page `http://h/sub/page.html` under output root
`site` referencing the image `/img/a.png`.  The rewriter stores
`../img_a.png` (the relative path between the computed paths) in the
document, but the page is actually written to `site_sub_page.html` and the
worker actually writes the resource to `site_img_a.png` (both paths pass
through `sanitize_filename` before the file is opened), so the stored
relative path, resolved from the page's actual output location, is not the
path where the resource file is actually written. -/
theorem c4_relative_path_not_actual_counterexample :
    (processRef (fun _ _ => chars "http://h/img/a.png") (fun _ s => s)
        ⟨chars "site", 1, [], false⟩ (chars "http://h/sub/page.html")
        (pageSavePath (chars "site") (chars "http://h/sub/page.html"))
        ⟨Tag.img, some (chars "/img/a.png"), []⟩ emptySt).events
      = [Event.mkdirs (chars "site"),
         Event.enqueue (chars "http://h/img/a.png") (chars "site/img_a.png"),
         Event.rewrite (chars "../img_a.png")]
  ∧ (save_file (Except.ok ⟨1, [chars "X"], false⟩) (chars "site/img_a.png") 50).written
      = some (chars "site_img_a.png", chars "X")
  ∧ writtenPagePath (chars "site") (chars "http://h/sub/page.html")
      = chars "site_sub_page.html"
  ∧ ¬ resolveFrom (dirname (chars "site_sub_page.html")) (chars "../img_a.png")
      = chars "site_img_a.png" := by
  refine ⟨by decide, by decide, by decide, by decide⟩

/-- C4 (amended): the rewritten attribute value is the forward-slash
relative path from the page's computed output directory to the resource's
computed destination path (see `c10`'s rewrite event), and at component
level such a relative path does resolve, from the computed page directory,
back to the computed destination: resolving `relpathParts pl sl` from `sl`
yields `pl` for dot-free component lists, and a slashified value never
contains a backslash.  It is only the pair of actually-written paths —
both flattened by `sanitize_filename` — that the stored value fails to
connect (see the counterexample). -/
theorem c4_relpath_resolves_to_computed (pl sl : List Str) (v : Str)
    (hp : ∀ c ∈ pl, ¬ c = chars ".." ∧ ¬ c = chars ".") :
    resolveParts sl (relpathParts pl sl) = pl ∧ ¬ '\\' ∈ slashify v := by
  constructor
  · have hk := commonPrefixLen_le_right pl sl
    unfold relpathParts
    rw [resolveParts_pops _ _ _ (Nat.sub_le _ _)]
    have h1 : sl.length - (sl.length - commonPrefixLen pl sl) = commonPrefixLen pl sl := by
      omega
    rw [h1, ← take_commonPrefixLen_eq]
    rw [resolveParts_appends _ _ (fun c hc => hp c (List.drop_subset _ _ hc))]
    exact List.take_append_drop _ _
  · intro hm
    obtain ⟨a, _, ha⟩ := List.mem_map.1 hm
    by_cases hb : a = '\\'
    · rw [if_pos hb] at ha
      exact absurd ha (by decide)
    · rw [if_neg hb] at ha
      exact hb ha

/-- Witness for the amended C4 on the counterexample's computed component
lists: `site/img_a.png` relative to `site/sub` resolves back to
`site/img_a.png`. -/
theorem c4_relpath_resolves_to_computed_witness :
    resolveParts [chars "site", chars "sub"]
        (relpathParts [chars "site", chars "img_a.png"] [chars "site", chars "sub"])
      = [chars "site", chars "img_a.png"]
  ∧ ¬ '\\' ∈ slashify (chars "../img_a.png") :=
  c4_relpath_resolves_to_computed [chars "site", chars "img_a.png"]
    [chars "site", chars "sub"] (chars "../img_a.png") (by decide)
